import Mathlib

/-!
Verification development for the md-to-html conversion core.

The embedding covers the three-stage pipeline:
* `tokenize` from `src/parser/lexer.js` (`MarkdownLexer.tokenize`),
* `parseNodes` / `parseInlineContent` from `src/parser/parser.js`
  (`MarkdownParser.parse`, `parseList`, `parseOrderedList`, `parseBlockquote`,
  `parseTable`, `parseParagraph`, `parseInlineContent`),
* `renderBlock` / `renderInline` / `escapeHtml` / `wrapInDocument` from
  `src/parser/renderer.js` (`HTMLRenderer`),
* the `convert` entry point from `src/converter.js`.

Strings are modelled as lists of characters (`Str`); the JavaScript string
primitives used by the source (`split`, `trim`, `startsWith`, `endsWith`,
`indexOf`, `substring`, `replace` with a single-character global regex) are
given explicit list-level definitions.  JavaScript `\s` and `trim()`
whitespace is modelled by its ASCII subset, which is the only part exercised
by the source's inputs.  The source's cursor `while` loops are written as
structural recursions over an explicit fuel argument so that every definition
is kernel-computable; the fuel is always instantiated large enough
(see the fuel-irrelevance lemmas below).

The external `highlight.js` dependency (`hljs.highlight`, wrapped in
`try/catch` by `renderCodeBlock`) is not part of the repository; it is
modelled as an arbitrary function `HlFun` returning `Option Str`, with
`none` standing for the thrown-and-caught exception.
-/

/-- Strings as lists of characters. -/
abbrev Str := List Char

/-- Converts a Lean string literal to the character-list model. -/
def str (s : String) : Str := s.toList

/-- JavaScript whitespace (`\s`, `trim()`), restricted to its ASCII subset. -/
def isJsWs (c : Char) : Bool :=
  c == ' ' || c == '\t' || c == '\n' || c == '\r' || c == '\x0b' || c == '\x0c'

/-- JavaScript `String.prototype.trim()`. -/
def jsTrim (s : Str) : Str :=
  ((s.dropWhile isJsWs).reverse.dropWhile isJsWs).reverse

/-- JavaScript `String.prototype.split(sep)` for a single-character separator:
`"".split(sep)` is `[""]`, and a trailing separator yields a trailing empty
piece (`"a\n".split("\n")` is `["a", ""]`). -/
def jsSplitChar (sep : Char) : Str → List Str
  | [] => [[]]
  | c :: rest =>
    if c == sep then [] :: jsSplitChar sep rest
    else
      match jsSplitChar sep rest with
      | [] => [[c]]
      | piece :: pieces => (c :: piece) :: pieces

/-- JavaScript `indexOf(char)`: index of the first occurrence, if any. -/
def findCharIdx (target : Char) : Str → Option Nat
  | [] => none
  | c :: rest =>
    if c == target then some 0 else (findCharIdx target rest).map (· + 1)

/-- JavaScript `indexOf(pattern)` for a string pattern: index of the first
position where `pat` occurs as a contiguous sublist. -/
def firstSubIdx (pat : Str) : Str → Option Nat
  | [] => if pat.isEmpty then some 0 else none
  | c :: rest =>
    if pat.isPrefixOf (c :: rest) then some 0
    else (firstSubIdx pat rest).map (· + 1)

/-- JavaScript `String.prototype.replace(/c/g, rep)` for a single-character
pattern: every occurrence of `pat` is replaced by `rep`, and replacements are
not rescanned. -/
def jsReplaceCh (pat : Char) (rep : Str) : Str → Str
  | [] => []
  | c :: rest =>
    if c == pat then rep ++ jsReplaceCh pat rep rest
    else c :: jsReplaceCh pat rep rest

/-- `HTMLRenderer.escapeHtml`: the five sequential global replaces of
`renderer.js` lines 205-213, `&` first so later entities are not re-escaped.
The source's `typeof text !== 'string'` guard cannot fire on `Str` inputs. -/
def escapeHtml (text : Str) : Str :=
  jsReplaceCh (Char.ofNat 39) (str "&#39;")
    (jsReplaceCh '"' (str "&quot;")
      (jsReplaceCh '>' (str "&gt;")
        (jsReplaceCh '<' (str "&lt;")
          (jsReplaceCh '&' (str "&amp;") text))))

/-- Tokens produced by `MarkdownLexer.tokenize`.  Fields mirror the object
literals pushed by the source; the `value`/`content` fields that merely
duplicate another stored field (`content` of `header` duplicates `text`,
`content` of `code_block` duplicates `code`, `value`/`content` of
`line_break` are the constant `"\n"`) are stored once. -/
inductive Token where
  | lineBreak (position : Nat)
  | header (level : Nat) (text : Str) (value : Str) (position : Nat) (length : Nat)
  | codeBlock (language : Str) (code : Str) (value : Str) (position : Nat) (length : Nat)
  | listItem (content : Str) (value : Str) (position : Nat) (length : Nat)
  | orderedListItem (content : Str) (value : Str) (position : Nat) (length : Nat)
  | blockquote (content : Str) (value : Str) (position : Nat) (length : Nat)
  | hr (value : Str) (content : Str) (position : Nat) (length : Nat)
  | tableRow (content : Str) (cells : List Str) (value : Str) (position : Nat) (length : Nat)
  | paragraph (content : Str) (value : Str) (position : Nat) (length : Nat)
deriving DecidableEq

/-- The `content` field of a token as read by the parser (`token.content`). -/
def Token.contentOf : Token → Str
  | .lineBreak _ => str "\n"
  | .header _ text _ _ _ => text
  | .codeBlock _ code _ _ _ => code
  | .listItem c _ _ _ => c
  | .orderedListItem c _ _ _ => c
  | .blockquote c _ _ _ => c
  | .hr _ c _ _ => c
  | .tableRow c _ _ _ _ => c
  | .paragraph c _ _ _ => c

/-- The `cells` field as read by the parser (`token.cells || []`). -/
def Token.cellsOf : Token → List Str
  | .tableRow _ cells _ _ _ => cells
  | _ => []

/-- The `type` tag of a token. -/
inductive TokKind where
  | lineBreak | header | codeBlock | listItem | orderedListItem
  | blockquote | hr | tableRow | paragraph
deriving DecidableEq

/-- Token to its `type` tag. -/
def Token.kindOf : Token → TokKind
  | .lineBreak _ => .lineBreak
  | .header _ _ _ _ _ => .header
  | .codeBlock _ _ _ _ _ => .codeBlock
  | .listItem _ _ _ _ => .listItem
  | .orderedListItem _ _ _ _ => .orderedListItem
  | .blockquote _ _ _ _ => .blockquote
  | .hr _ _ _ _ => .hr
  | .tableRow _ _ _ _ _ => .tableRow
  | .paragraph _ _ _ _ => .paragraph

/-- The header regex `^(#{1,6})\s+(.+)$` of lexer.js line 64, applied to the
trimmed line: one to six leading `#`, at least one whitespace, then the rest
with its leading whitespace stripped (greedy `\s+`).  `tokenize` only applies
this to trimmed lines, which never end in whitespace, so the regex's
backtracking case (text consisting of trailing whitespace) cannot arise. -/
def headerMatch? (t : Str) : Option (Nat × Str) :=
  let hashes := t.takeWhile (· == '#')
  let rest := t.dropWhile (· == '#')
  if 1 ≤ hashes.length && hashes.length ≤ 6 then
    match rest with
    | c :: _ =>
      if isJsWs c then
        let text := rest.dropWhile isJsWs
        if text.isEmpty then none else some (hashes.length, text)
      else none
    | [] => none
  else none

/-- The unordered-list regex `^[\s]*[-*+]\s+(.+)$` of lexer.js line 104. -/
def listMatch? (t : Str) : Option Str :=
  let u := t.dropWhile isJsWs
  match u with
  | b :: rest =>
    if b == '-' || b == '*' || b == '+' then
      match rest with
      | c :: _ =>
        if isJsWs c then
          let content := rest.dropWhile isJsWs
          if content.isEmpty then none else some content
        else none
      | [] => none
    else none
  | [] => none

/-- The ordered-list regex `^[\s]*\d+\.\s+(.+)$` of lexer.js line 117. -/
def orderedMatch? (t : Str) : Option Str :=
  let u := t.dropWhile isJsWs
  let digits := u.takeWhile Char.isDigit
  let after := u.dropWhile Char.isDigit
  if digits.isEmpty then none
  else
    match after with
    | '.' :: rest =>
      match rest with
      | c :: _ =>
        if isJsWs c then
          let content := rest.dropWhile isJsWs
          if content.isEmpty then none else some content
        else none
      | [] => none
    | _ => none

/-- The horizontal-rule regex `^[-*_]{3,}$` of lexer.js line 142. -/
def isHrLine (t : Str) : Bool :=
  3 ≤ t.length && t.all (fun c => c == '-' || c == '*' || c == '_')

/-- `trimmedLine.startsWith('```')` applied to an already-trimmed line. -/
def startsFence (t : Str) : Bool := (str "```").isPrefixOf t

/-- The fence loop's continuation condition of lexer.js line 84:
`!lines[j].trim().startsWith('```')`. -/
def notFence (l : Str) : Bool := !(startsFence (jsTrim l))

/-- The fence-consumption `while` loop of lexer.js lines 81-87: collect raw
lines until a closing fence; returns the collected code lines and the
remaining lines (starting with the closing fence, if one exists). -/
def collectCode : List Str → List Str × List Str
  | [] => ([], [])
  | l :: ls =>
    if startsFence (jsTrim l) then ([], l :: ls)
    else
      let cr := collectCode ls
      (l :: cr.1, cr.2)

/-- The cell computation of lexer.js line 155:
`trimmedLine.split('|').map(cell => cell.trim()).filter(cell => cell)`. -/
def tableCells (t : Str) : List Str :=
  ((jsSplitChar '|' t).map jsTrim).filter (fun c => !c.isEmpty)

/-- `MarkdownLexer.tokenize`'s line loop (lexer.js lines 47-175), with the
scan index `i` as `pos` and an explicit fuel argument (one unit per processed
line; the out-of-fuel arm is unreachable for the fuel used by `tokenize`). -/
def tokenizeGo : Nat → Nat → List Str → List Token
  | 0, _, _ => []
  | _ + 1, _, [] => []
  | fuel + 1, pos, line :: rest =>
    let t := jsTrim line
    if t.isEmpty then
      Token.lineBreak pos :: tokenizeGo fuel (pos + 1) rest
    else
      match headerMatch? t with
      | some (level, text) =>
        Token.header level text line pos line.length :: tokenizeGo fuel (pos + 1) rest
      | none =>
        if startsFence t then
          let language := jsTrim (t.drop 3)
          let code := (collectCode rest).1
          let after := (collectCode rest).2
          Token.codeBlock language (List.intercalate (str "\n") code) line pos (code.length + 2)
            :: tokenizeGo fuel (pos + code.length + 2) (after.drop 1)
        else
          match listMatch? t with
          | some content =>
            Token.listItem content line pos line.length :: tokenizeGo fuel (pos + 1) rest
          | none =>
            match orderedMatch? t with
            | some content =>
              Token.orderedListItem content line pos line.length
                :: tokenizeGo fuel (pos + 1) rest
            | none =>
              if t.head? == some '>' then
                Token.blockquote (jsTrim (t.drop 1)) line pos line.length
                  :: tokenizeGo fuel (pos + 1) rest
              else if isHrLine t then
                Token.hr line line pos line.length :: tokenizeGo fuel (pos + 1) rest
              else if t.head? == some '|' && t.getLast? == some '|' then
                Token.tableRow t (tableCells t) line pos line.length
                  :: tokenizeGo fuel (pos + 1) rest
              else
                Token.paragraph line line pos line.length :: tokenizeGo fuel (pos + 1) rest

/-- The tokenizer from a given source-line index, with adequate fuel. -/
def tokenizeFrom (pos : Nat) (lines : List Str) : List Token :=
  tokenizeGo (lines.length + 1) pos lines

/-- `MarkdownLexer.tokenize`: split on `'\n'` and scan the lines. -/
def tokenize (text : Str) : List Token :=
  tokenizeFrom 0 (jsSplitChar '\n' text)

/-- The classification outcome for one input line. -/
inductive LineClass where
  | blank | header | fence | listItem | orderedListItem
  | blockquote | hr | tableRow | paragraph
deriving DecidableEq

/-- The per-line classification chain of `tokenize`, without token payloads:
the same tests, in the same order, as lexer.js lines 52-167. -/
def classify (line : Str) : LineClass :=
  let t := jsTrim line
  if t.isEmpty then .blank
  else
    match headerMatch? t with
    | some _ => .header
    | none =>
      if startsFence t then .fence
      else
        match listMatch? t with
        | some _ => .listItem
        | none =>
          match orderedMatch? t with
          | some _ => .orderedListItem
          | none =>
            if t.head? == some '>' then .blockquote
            else if isHrLine t then .hr
            else if t.head? == some '|' && t.getLast? == some '|' then .tableRow
            else .paragraph

/-- The token `type` produced for each line class. -/
def LineClass.tokKind : LineClass → TokKind
  | .blank => .lineBreak
  | .header => .header
  | .fence => .codeBlock
  | .listItem => .listItem
  | .orderedListItem => .orderedListItem
  | .blockquote => .blockquote
  | .hr => .hr
  | .tableRow => .tableRow
  | .paragraph => .paragraph

/-- Modelled from the spec (§4.1): the fixed priority list of line
categories, each with its syntactic trigger, tried in order with `Paragraph`
as the default.  This is the specification-side description that `classify`
is checked against. -/
def specRules : List ((Str → Bool) × LineClass) :=
  [ (fun t => t.isEmpty, .blank),
    (fun t => (headerMatch? t).isSome, .header),
    (fun t => startsFence t, .fence),
    (fun t => (listMatch? t).isSome, .listItem),
    (fun t => (orderedMatch? t).isSome, .orderedListItem),
    (fun t => t.head? == some '>', .blockquote),
    (fun t => isHrLine t, .hr),
    (fun t => t.head? == some '|' && t.getLast? == some '|', .tableRow) ]

/-- Modelled from the spec (§4.1): first-match semantics over an ordered rule
list, stopping at the first rule whose trigger fires. -/
def firstMatch (t : Str) : List ((Str → Bool) × LineClass) → LineClass
  | [] => .paragraph
  | (p, k) :: rules => if p t then k else firstMatch t rules

/-- Modelled from the spec (§4.1): classification as first match over the
priority list, applied to the trimmed line. -/
def classifySpec (line : Str) : LineClass :=
  firstMatch (jsTrim line) specRules

/-- Inline nodes pushed by `MarkdownParser.parseInlineContent`.  Every
constructor carries flat string content only, exactly as the object literals
in parser.js lines 216-303 do (none of them has a `children` field; the
`content` field of `image` duplicates `alt` and is stored once). -/
inductive Inline where
  | text (content : Str)
  | bold (content : Str)
  | italic (content : Str)
  | inlineCode (content : Str)
  | link (content : Str) (url : Str)
  | image (alt : Str) (src : Str)
deriving DecidableEq

/-- Flushing the accumulated plain-text buffer (`if (currentText) ...`). -/
def flushBuf (buf : Str) : List Inline :=
  if buf.isEmpty then [] else [Inline.text buf]

/-- The bold branch of parser.js lines 213-228: fires on a `**` prefix; the
closing marker is the first later `**` (`indexOf('**', i + 2)`). -/
def tryBold : Str → Option (Inline × Str)
  | '*' :: '*' :: u =>
    match firstSubIdx (str "**") u with
    | some j => some (Inline.bold (u.take j), u.drop (j + 2))
    | none => none
  | _ => none

/-- The italic branch of parser.js lines 231-246: a `*` not followed by `*`;
the first later `*` closes it only if not itself followed by `*`. -/
def tryItalic : Str → Option (Inline × Str)
  | '*' :: u =>
    if u.head? == some '*' then none
    else
      match findCharIdx '*' u with
      | some j =>
        if u[j + 1]? == some '*' then none
        else some (Inline.italic (u.take j), u.drop (j + 1))
      | none => none
  | _ => none

/-- The inline-code branch of parser.js lines 249-264. -/
def tryCode : Str → Option (Inline × Str)
  | '`' :: u =>
    match findCharIdx '`' u with
    | some j => some (Inline.inlineCode (u.take j), u.drop (j + 1))
    | none => none
  | _ => none

/-- The link branch of parser.js lines 267-286: `[`, first `]`, an immediate
`(`, first `)` after it. -/
def tryLink : Str → Option (Inline × Str)
  | '[' :: u =>
    match findCharIdx ']' u with
    | some j =>
      if u[j + 1]? == some '(' then
        match findCharIdx ')' (u.drop (j + 2)) with
        | some k =>
          some (Inline.link (u.take j) ((u.drop (j + 2)).take k), (u.drop (j + 2)).drop (k + 1))
        | none => none
      else none
    | none => none
  | _ => none

/-- The image branch of parser.js lines 289-308: `![`, first `]`, an
immediate `(`, first `)` after it. -/
def tryImage : Str → Option (Inline × Str)
  | '!' :: '[' :: u =>
    match findCharIdx ']' u with
    | some j =>
      if u[j + 1]? == some '(' then
        match findCharIdx ')' (u.drop (j + 2)) with
        | some k =>
          some (Inline.image (u.take j) ((u.drop (j + 2)).take k), (u.drop (j + 2)).drop (k + 1))
        | none => none
      else none
    | none => none
  | _ => none

/-- One scan position's marker attempt, in the source's branch order.  The
five branch preconditions are keyed to distinct first characters, so at most
one branch is entered per position. -/
def tryMarker (s : Str) : Option (Inline × Str) :=
  match tryBold s with
  | some r => some r
  | none =>
    match tryItalic s with
    | some r => some r
    | none =>
      match tryCode s with
      | some r => some r
      | none =>
        match tryLink s with
        | some r => some r
        | none => tryImage s

/-- Whether some marker branch's precondition holds at this position.  The
source flushes `currentText` on entering a branch even when the branch then
fails to find its closing delimiter; in that case the current character is
appended to the now-empty buffer.  The branch preconditions are: a `**`
prefix (bold), `*` not followed by `*` (italic) — together, any leading
`*` —, a leading backtick (code), a leading `[` (link), and a `![` prefix
(image). -/
def enteredMarker : Str → Bool
  | '*' :: _ => true
  | '`' :: _ => true
  | '[' :: _ => true
  | '!' :: '[' :: _ => true
  | _ => false

/-- The character scan of `parseInlineContent` (parser.js lines 211-313):
suffix still to scan, pending plain-text buffer, explicit fuel (one unit per
consumed position; the out-of-fuel arm is unreachable for the fuel used by
`parseInlineContent`). -/
def parseInlineGo : Nat → Str → Str → List Inline
  | 0, _, buf => flushBuf buf
  | _ + 1, [], buf => flushBuf buf
  | fuel + 1, c :: rest, buf =>
    match tryMarker (c :: rest) with
    | some (node, s') => flushBuf buf ++ node :: parseInlineGo fuel s' []
    | none =>
      if enteredMarker (c :: rest) then flushBuf buf ++ parseInlineGo fuel rest [c]
      else parseInlineGo fuel rest (buf ++ [c])

/-- `MarkdownParser.parseInlineContent` (parser.js lines 203-321). -/
def parseInlineContent (text : Str) : List Inline :=
  if text.isEmpty then [] else parseInlineGo (text.length + 1) text []

/-- A list item node (`{type: 'list_item', content, children}`). -/
structure LItem where
  content : Str
  children : List Inline
deriving DecidableEq

/-- Block-level AST nodes built by `MarkdownParser`.  The source's `text`
node (`parseText`, the switch default) is unreachable for lexer-produced
tokens, whose types are all covered by explicit cases, and is omitted. -/
inductive Block where
  | header (level : Nat) (text : Str) (children : List Inline)
  | codeBlock (language : Str) (code : Str)
  | list (items : List LItem)
  | orderedList (items : List LItem)
  | blockquote (content : Str) (children : List Inline)
  | hr
  | table (rows : List (List Str))
  | paragraph (content : Str) (children : List Inline)
deriving DecidableEq

/-- The document root (`{type: 'document', children}`). -/
inductive AST where
  | document (children : List Block)
deriving DecidableEq

/-- `token.type === 'list_item'`. -/
def isListItemTok : Token → Bool
  | .listItem _ _ _ _ => true
  | _ => false

/-- `token.type === 'ordered_list_item'`. -/
def isOrderedTok : Token → Bool
  | .orderedListItem _ _ _ _ => true
  | _ => false

/-- `token.type === 'table_row'`. -/
def isTableRowTok : Token → Bool
  | .tableRow _ _ _ _ _ => true
  | _ => false

/-- `token.type === 'blockquote'`. -/
def isBqTok : Token → Bool
  | .blockquote _ _ _ _ => true
  | _ => false

/-- The item built from one list-item token (parser.js lines 101-105). -/
def listItemNode (t : Token) : LItem :=
  ⟨t.contentOf, parseInlineContent t.contentOf⟩

/-- The blockquote node built from one blockquote token (parser.js 138-145). -/
def bqNode (t : Token) : Block :=
  Block.blockquote t.contentOf (parseInlineContent t.contentOf)

/-- `MarkdownParser.parse`'s dispatch loop (parser.js lines 25-66), with the
run-grouping `while` loops of `parseList` / `parseOrderedList` / `parseTable`
expressed with `takeWhile`/`dropWhile` over the remaining tokens, and an
explicit fuel argument (at least one token is consumed per step; the
out-of-fuel arm is unreachable for the fuel used by `parseNodes`). -/
def parseNodesGo : Nat → List Token → List Block
  | 0, _ => []
  | _ + 1, [] => []
  | fuel + 1, tok :: rest =>
    match tok with
    | .header level text _ _ _ =>
      Block.header level text (parseInlineContent text) :: parseNodesGo fuel rest
    | .codeBlock lang code _ _ _ =>
      Block.codeBlock lang code :: parseNodesGo fuel rest
    | .listItem _ _ _ _ =>
      Block.list (listItemNode tok :: (rest.takeWhile isListItemTok).map listItemNode)
        :: parseNodesGo fuel (rest.dropWhile isListItemTok)
    | .orderedListItem _ _ _ _ =>
      Block.orderedList (listItemNode tok :: (rest.takeWhile isOrderedTok).map listItemNode)
        :: parseNodesGo fuel (rest.dropWhile isOrderedTok)
    | .blockquote c _ _ _ =>
      Block.blockquote c (parseInlineContent c) :: parseNodesGo fuel rest
    | .hr _ _ _ _ =>
      Block.hr :: parseNodesGo fuel rest
    | .tableRow _ cells _ _ _ =>
      Block.table (cells :: (rest.takeWhile isTableRowTok).map Token.cellsOf)
        :: parseNodesGo fuel (rest.dropWhile isTableRowTok)
    | .lineBreak _ => parseNodesGo fuel rest
    | .paragraph c _ _ _ =>
      Block.paragraph c (parseInlineContent c) :: parseNodesGo fuel rest

/-- The block list built by `MarkdownParser.parse`. -/
def parseNodes (tokens : List Token) : List Block :=
  parseNodesGo (tokens.length + 1) tokens

/-- `MarkdownParser.parse`: always returns a `document` root. -/
def parse (tokens : List Token) : AST :=
  AST.document (parseNodes tokens)

/-- The external highlighter: `some` is a successful `hljs.highlight` call,
`none` a thrown (and caught) highlighting error. -/
def HlFun := Str → Str → Option Str

/-- The renderer options recognized by `HTMLRenderer`. -/
structure RenderOptions where
  highlight : Bool
  theme : Str

/-- Inline-node rendering (the inline cases of `renderNode`, renderer.js
lines 66-82).  `renderInlineContent(node)` is called for `bold`, `italic`
and `link`; since inline nodes built by `parseInlineContent` never carry a
`children` field, that call always takes its `escapeHtml(node.content)`
fallback, inlined here. -/
def renderInline : Inline → Str
  | .text c => escapeHtml c
  | .bold c => str "<strong>" ++ escapeHtml c ++ str "</strong>"
  | .italic c => str "<em>" ++ escapeHtml c ++ str "</em>"
  | .inlineCode c => str "<code>" ++ escapeHtml c ++ str "</code>"
  | .link t u => str "<a href=\"" ++ escapeHtml u ++ str "\">" ++ escapeHtml t ++ str "</a>"
  | .image alt src =>
    str "<img src=\"" ++ escapeHtml src ++ str "\" alt=\"" ++ escapeHtml alt ++ str "\" />"

/-- Rendering a children list: `children.map(renderNode).join('')`. -/
def renderInlines (children : List Inline) : Str :=
  (children.map renderInline).flatten

/-- Decimal rendering of a number interpolated into a template string. -/
def natStr (n : Nat) : Str := (toString n).toList

/-- `HTMLRenderer.renderCodeBlock` (renderer.js lines 111-128): highlighted
output is trusted verbatim, a highlighting failure falls back to escaping,
and a non-empty language adds a `language-` class. -/
def renderCodeBlock (opts : RenderOptions) (hl : HlFun) (language code : Str) : Str :=
  let body :=
    if opts.highlight && !language.isEmpty then
      match hl language code with
      | some highlighted => highlighted
      | none => escapeHtml code
    else escapeHtml code
  let cls :=
    if language.isEmpty then str ""
    else str " class=\"language-" ++ language ++ str "\""
  str "<pre><code" ++ cls ++ str ">" ++ body ++ str "</code></pre>"

/-- One `<li>`: items built by the parser always carry a `children` array, so
the source's `item.children ?` test always takes the children branch. -/
def renderItem (it : LItem) : Str :=
  str "<li>" ++ renderInlines it.children ++ str "</li>"

/-- Block-level rendering (`renderNode` and its per-kind helpers,
renderer.js lines 35-190).  For `header`, `renderInlineContent` falls back
to `escapeHtml(node.content || '')` with `node.content` absent when the
children list is empty, which coincides with joining an empty list; for
`blockquote` the parser always supplies the children array. -/
def renderBlock (opts : RenderOptions) (hl : HlFun) : Block → Str
  | .header level _ children =>
    str "<h" ++ natStr level ++ str ">" ++ renderInlines children
      ++ str "</h" ++ natStr level ++ str ">"
  | .paragraph content children =>
    if !children.isEmpty then str "<p>" ++ renderInlines children ++ str "</p>"
    else str "<p>" ++ escapeHtml content ++ str "</p>"
  | .codeBlock language code => renderCodeBlock opts hl language code
  | .list items =>
    str "<ul>\n" ++ List.intercalate (str "\n") (items.map renderItem) ++ str "\n</ul>"
  | .orderedList items =>
    str "<ol>\n" ++ List.intercalate (str "\n") (items.map renderItem) ++ str "\n</ol>"
  | .blockquote _ children =>
    str "<blockquote>" ++ renderInlines children ++ str "</blockquote>"
  | .hr => str "<hr>"
  | .table rows =>
    if rows.isEmpty then str ""
    else
      let rowStrs := rows.enum.map (fun p =>
        let tag := if p.1 == 0 then str "th" else str "td"
        str "<tr>"
          ++ (p.2.map (fun cell =>
                str "<" ++ tag ++ str ">" ++ escapeHtml cell ++ str "</" ++ tag ++ str ">")).flatten
          ++ str "</tr>")
      str "<table>\n" ++ List.intercalate (str "\n") rowStrs ++ str "\n</table>"

/-- `HTMLRenderer.wrapInDocument` (renderer.js lines 218-235). -/
def wrapInDocument (theme : Str) (content : Str) : Str :=
  let themeClass := if theme == str "dark" then str "dark-theme" else str "light-theme"
  str "<!DOCTYPE html>\n<html lang=\"en\" class=\"" ++ themeClass
    ++ str "\">\n<head>\n    <meta charset=\"UTF-8\">\n    <meta name=\"viewport\" content=\"width=device-width, initial-scale=1.0\">\n    <title>Markdown Document</title>\n    <link rel=\"stylesheet\" href=\"styles.css\">\n</head>\n<body>\n    <div class=\"container\">\n        "
    ++ content ++ str "\n    </div>\n</body>\n</html>"

/-- `HTMLRenderer.render` (renderer.js lines 21-28).  The source throws
`Invalid AST: expected document node` for a non-document root; `parse`
always returns a document root, so on pipeline-produced trees the guard
cannot fire and rendering is total. -/
def renderAST (opts : RenderOptions) (hl : HlFun) : AST → Str
  | .document children =>
    wrapInDocument opts.theme
      (List.intercalate (str "\n") (children.map (renderBlock opts hl)))

/-- `MarkdownConverter.convert` (converter.js lines 22-40).  A non-string
argument (`none`) makes `markdown.split('\n')` throw, which the `catch`
rewraps as a conversion error; every string input flows through the total
pipeline. -/
def convert (input : Option Str) (opts : RenderOptions) (hl : HlFun) : Except Str Str :=
  match input with
  | none => Except.error (str "Conversion failed: markdown.split is not a function")
  | some markdown => Except.ok (renderAST opts hl (parse (tokenize markdown)))

/-! ## Theorems -/

/-- C1: the entry point fails only when handed a non-string input; for every
string input — including malformed markers, unterminated fences, or empty
content — `convert` returns a markup string and never raises.  The pipeline
`tokenize → parse → renderAST` is total on `Str`; the only error arm of
`convert` is the non-string (`none`) input, whatever the options and
whatever the external highlighter does. -/
theorem c1_convert_fails_only_on_non_string :
    (∀ (md : Str) (opts : RenderOptions) (hl : HlFun),
      ∃ html, convert (some md) opts hl = Except.ok html) ∧
    (∀ (opts : RenderOptions) (hl : HlFun),
      ∃ msg, convert none opts hl = Except.error msg) :=
  ⟨fun md opts hl => ⟨renderAST opts hl (parse (tokenize md)), rfl⟩,
   fun _ _ => ⟨str "Conversion failed: markdown.split is not a function", rfl⟩⟩

/-- C2 (failing input): contrary to the claim (and to the repository's own
test `tests/lexer.test.js`, "should handle empty string", which expects zero
tokens), `tokenize ""` returns one `line_break` token, because JavaScript
`"".split('\n')` yields `[""]` — one empty line, classified as blank.
Likewise `"a\n".split('\n')` yields `["a", ""]`, so a trailing line
terminator does produce a phantom trailing line and hence an extra token. -/
theorem c2_tokenize_empty_yields_a_token :
    tokenize (str "") = [Token.lineBreak 0] ∧
    tokenize (str "") ≠ [] ∧
    tokenize (str "a\n") = [Token.paragraph (str "a") (str "a") 0 1, Token.lineBreak 1] := by
  refine ⟨by decide, by decide, by decide⟩

/-- C3: literal text content in `Text` leaves and every attribute value
(link URL, image src/alt) passes through `escapeHtml` before emission;
`escapeHtml` rewrites exactly the five characters, `escape("<") = "&lt;"`,
and escaping an already-escaped string is distinguishable from the original
(`escape("&lt;") = "&amp;lt;" ≠ "&lt;"`, so escaping is not idempotent). -/
theorem c3_escaping_before_emission :
    (∀ c : Str, renderInline (Inline.text c) = escapeHtml c) ∧
    (∀ t u : Str, renderInline (Inline.link t u)
      = str "<a href=\"" ++ escapeHtml u ++ str "\">" ++ escapeHtml t ++ str "</a>") ∧
    (∀ a s : Str, renderInline (Inline.image a s)
      = str "<img src=\"" ++ escapeHtml s ++ str "\" alt=\"" ++ escapeHtml a ++ str "\" />") ∧
    escapeHtml (str "&<>\"" ++ [Char.ofNat 39])
      = str "&amp;&lt;&gt;&quot;&#39;" ∧
    escapeHtml (str "<") = str "&lt;" ∧
    escapeHtml (str "&lt;") = str "&amp;lt;" ∧
    escapeHtml (str "&lt;") ≠ str "&lt;" :=
  ⟨fun _ => rfl, fun _ _ => rfl, fun _ _ => rfl, by decide, by decide, by decide, by decide⟩

/-! ### Inline-scan helper lemmas -/

/-- A successful bold attempt consumes at least the opening marker. -/
theorem tryBold_length {s s' : Str} {node : Inline}
    (h : tryBold s = some (node, s')) : s'.length < s.length := by
  unfold tryBold at h
  split at h
  · split at h
    · cases h
      rename_i u j _
      simp [List.length_drop]
      omega
    · cases h
  · cases h

/-- A successful italic attempt consumes at least the opening marker. -/
theorem tryItalic_length {s s' : Str} {node : Inline}
    (h : tryItalic s = some (node, s')) : s'.length < s.length := by
  unfold tryItalic at h
  split at h
  · split at h
    · cases h
    · split at h
      · split at h
        · cases h
        · cases h
          rename_i u _ j _ _
          simp [List.length_drop]
          omega
      · cases h
  · cases h

/-- A successful inline-code attempt consumes at least the opening marker. -/
theorem tryCode_length {s s' : Str} {node : Inline}
    (h : tryCode s = some (node, s')) : s'.length < s.length := by
  unfold tryCode at h
  split at h
  · split at h
    · cases h
      rename_i u j _
      simp [List.length_drop]
      omega
    · cases h
  · cases h

/-- A successful link attempt consumes at least the opening bracket. -/
theorem tryLink_length {s s' : Str} {node : Inline}
    (h : tryLink s = some (node, s')) : s'.length < s.length := by
  unfold tryLink at h
  split at h
  · split at h
    · split at h
      · split at h
        · cases h
          rename_i u j _ _ k _
          simp [List.length_drop]
          omega
        · cases h
      · cases h
    · cases h
  · cases h

/-- A successful image attempt consumes at least the opening `![`. -/
theorem tryImage_length {s s' : Str} {node : Inline}
    (h : tryImage s = some (node, s')) : s'.length < s.length := by
  unfold tryImage at h
  split at h
  · split at h
    · split at h
      · split at h
        · cases h
          rename_i u j _ _ k _
          simp [List.length_drop]
          omega
        · cases h
      · cases h
    · cases h
  · cases h

/-- Every successful marker attempt strictly shrinks the remaining suffix. -/
theorem tryMarker_length {s s' : Str} {node : Inline}
    (h : tryMarker s = some (node, s')) : s'.length < s.length := by
  unfold tryMarker at h
  split at h
  · cases h; exact tryBold_length (by assumption)
  · split at h
    · cases h; exact tryItalic_length (by assumption)
    · split at h
      · cases h; exact tryCode_length (by assumption)
      · split at h
        · cases h; exact tryLink_length (by assumption)
        · exact tryImage_length h

/-- The fuel argument of the inline scan is irrelevant once it exceeds the
length of the remaining suffix. -/
theorem parseInlineGo_fuel :
    ∀ (f1 f2 : Nat) {s buf : Str}, s.length < f1 → s.length < f2 →
      parseInlineGo f1 s buf = parseInlineGo f2 s buf := by
  intro f1
  induction f1 with
  | zero => intro f2 s buf h1 _; exact absurd h1 (Nat.not_lt_zero _)
  | succ n ih =>
    intro f2 s buf h1 h2
    cases f2 with
    | zero => exact absurd h2 (Nat.not_lt_zero _)
    | succ m =>
      cases s with
      | nil => rfl
      | cons c rest =>
        simp only [parseInlineGo]
        cases htm : tryMarker (c :: rest) with
        | some r =>
          obtain ⟨node, s'⟩ := r
          have hlen := tryMarker_length htm
          simp only [List.length_cons] at h1 h2 hlen
          dsimp only
          rw [ih m (by omega) (by omega)]
        | none =>
          simp only [List.length_cons] at h1 h2
          dsimp only
          by_cases he : enteredMarker (c :: rest) = true
          · rw [if_pos he, if_pos he, ih m (by omega) (by omega)]
          · rw [if_neg he, if_neg he, ih m (by omega) (by omega)]

/-- The inline scan with any adequate fuel computes `parseInlineContent` of
the remaining suffix when the buffer is empty. -/
theorem parseInlineGo_eq_content {f : Nat} {s : Str} (h : s.length < f) :
    parseInlineGo f s [] = parseInlineContent s := by
  unfold parseInlineContent
  cases s with
  | nil =>
    cases f with
    | zero => exact absurd h (Nat.not_lt_zero _)
    | succ n => simp [parseInlineGo, flushBuf]
  | cons c rest =>
    rw [if_neg (by simp)]
    exact parseInlineGo_fuel f _ h (by omega)

/-- `str "**"` as an explicit character list. -/
theorem str_stars : str "**" = ['*', '*'] := rfl

/-- A non-`*` head rules the bold branch out. -/
theorem tryBold_none {c : Char} {rest : Str} (h : c ≠ '*') :
    tryBold (c :: rest) = none := by
  unfold tryBold
  split
  · rename_i heq
    injection heq with h1 _
    exact absurd h1 h
  · rfl

/-- A non-`*` head rules the italic branch out. -/
theorem tryItalic_none {c : Char} {rest : Str} (h : c ≠ '*') :
    tryItalic (c :: rest) = none := by
  unfold tryItalic
  split
  · rename_i heq
    injection heq with h1 _
    exact absurd h1 h
  · rfl

/-- A non-backtick head rules the inline-code branch out. -/
theorem tryCode_none {c : Char} {rest : Str} (h : c ≠ '`') :
    tryCode (c :: rest) = none := by
  unfold tryCode
  split
  · rename_i heq
    injection heq with h1 _
    exact absurd h1 h
  · rfl

/-- A non-`[` head rules the link branch out. -/
theorem tryLink_none {c : Char} {rest : Str} (h : c ≠ '[') :
    tryLink (c :: rest) = none := by
  unfold tryLink
  split
  · rename_i heq
    injection heq with h1 _
    exact absurd h1 h
  · rfl

/-- A non-`!` head rules the image branch out. -/
theorem tryImage_none {c : Char} {rest : Str} (h : c ≠ '!') :
    tryImage (c :: rest) = none := by
  unfold tryImage
  split
  · rename_i heq
    injection heq with h1 _
    exact absurd h1 h
  · rfl

/-- On a plain character (none of `*`, `` ` ``, `[`, `!`), no marker branch
succeeds. -/
theorem tryMarker_none {c : Char} {rest : Str}
    (h1 : c ≠ '*') (h2 : c ≠ '`') (h3 : c ≠ '[') (h4 : c ≠ '!') :
    tryMarker (c :: rest) = none := by
  simp only [tryMarker, tryBold_none h1, tryItalic_none h1, tryCode_none h2,
    tryLink_none h3, tryImage_none h4]

/-- On a plain character, no marker branch is even entered. -/
theorem enteredMarker_false {c : Char} {rest : Str}
    (h1 : c ≠ '*') (h2 : c ≠ '`') (h3 : c ≠ '[') (h4 : c ≠ '!') :
    enteredMarker (c :: rest) = false := by
  unfold enteredMarker
  split
  · rename_i heq; injection heq with h _; exact absurd h h1
  · rename_i heq; injection heq with h _; exact absurd h h2
  · rename_i heq; injection heq with h _; exact absurd h h3
  · rename_i heq; injection heq with h _; exact absurd h h4
  · rfl

/-- A scan over plain characters only accumulates them onto the buffer. -/
theorem parseInlineGo_plain :
    ∀ (s : Str) {f : Nat} {buf : Str},
      (∀ c ∈ s, c ≠ '*' ∧ c ≠ '`' ∧ c ≠ '[' ∧ c ≠ '!') → s.length < f →
      parseInlineGo f s buf = flushBuf (buf ++ s) := by
  intro s
  induction s with
  | nil =>
    intro f buf _ hf
    cases f with
    | zero => exact absurd hf (Nat.not_lt_zero _)
    | succ n => simp [parseInlineGo]
  | cons c rest ih =>
    intro f buf h hf
    cases f with
    | zero => exact absurd hf (Nat.not_lt_zero _)
    | succ n =>
      have hc := h c (List.mem_cons_self c rest)
      simp only [parseInlineGo,
        tryMarker_none hc.1 hc.2.1 hc.2.2.1 hc.2.2.2,
        enteredMarker_false hc.1 hc.2.1 hc.2.2.1 hc.2.2.2]
      rw [if_neg (by simp)]
      rw [ih (fun d hd => h d (List.mem_cons_of_mem c hd))
        (by simp only [List.length_cons] at hf; omega)]
      simp

/-- If `mid` contains no `**` occurrence and does not end in `*`, the first
`**` occurrence in `mid ++ "**" ++ post` sits exactly after `mid`. -/
theorem firstSubIdx_stars_append :
    ∀ (mid post : Str),
      firstSubIdx (str "**") mid = none → mid.getLast? ≠ some '*' →
      firstSubIdx (str "**") (mid ++ '*' :: '*' :: post) = some mid.length := by
  intro mid
  induction mid with
  | nil =>
    intro post _ _
    simp [firstSubIdx, str_stars, List.isPrefixOf]
  | cons c m ih =>
    intro post h1 h2
    have hpre : (str "**").isPrefixOf (c :: (m ++ '*' :: '*' :: post)) = false := by
      rw [str_stars]
      cases m with
      | nil =>
        have hc : c ≠ '*' := by
          intro hcc
          exact h2 (by simp [hcc])
        simp [List.isPrefixOf, Ne.symm hc]
      | cons d m' =>
        rcases eq_or_ne c '*' with hc | hc
        · rcases eq_or_ne d '*' with hd | hd
          · exfalso
            rw [hc, hd] at h1
            simp [firstSubIdx, str_stars, List.isPrefixOf] at h1
          · simp [List.isPrefixOf, Ne.symm hd]
        · simp [List.isPrefixOf, Ne.symm hc]
    have h1' : firstSubIdx (str "**") m = none := by
      simp only [firstSubIdx] at h1
      split at h1
      · cases h1
      · rcases hm : firstSubIdx (str "**") m with _ | j
        · rfl
        · rw [hm] at h1; cases h1
    have h2' : m.getLast? ≠ some '*' := by
      cases m with
      | nil => simp
      | cons d m' => rw [List.getLast?_cons_cons] at h2; exact h2
    have := ih post h1' h2'
    simp only [List.cons_append, firstSubIdx, List.append_eq, hpre, Bool.false_eq_true,
      if_false, this, Option.map_some', List.length_cons]

/-- A string without asterisks contains no `**` occurrence. -/
theorem firstSubIdx_stars_none {s : Str} (h : ∀ c ∈ s, c ≠ '*') :
    firstSubIdx (str "**") s = none := by
  induction s with
  | nil => rfl
  | cons c rest ih =>
    have hc := h c (List.mem_cons_self c rest)
    have ih' := ih (fun d hd => h d (List.mem_cons_of_mem c hd))
    rw [str_stars] at ih'
    simp [firstSubIdx, str_stars, List.isPrefixOf, Ne.symm hc, ih']

/-- A string avoiding `target` has no occurrence of it. -/
theorem findCharIdx_none {target : Char} {s : Str} (h : ∀ c ∈ s, c ≠ target) :
    findCharIdx target s = none := by
  induction s with
  | nil => rfl
  | cons c rest ih =>
    have hc := h c (List.mem_cons_self c rest)
    simp only [findCharIdx, Ne.symm hc]
    simp [hc, ih (fun d hd => h d (List.mem_cons_of_mem c hd))]

/-- If `a` avoids `target`, the first occurrence of `target` in
`a ++ target :: b` sits exactly after `a`. -/
theorem findCharIdx_append {target : Char} :
    ∀ (a : Str) {b : Str}, (∀ c ∈ a, c ≠ target) →
      findCharIdx target (a ++ target :: b) = some a.length := by
  intro a
  induction a with
  | nil => intro b _; simp [findCharIdx]
  | cons c a' ih =>
    intro b h
    have hc := h c (List.mem_cons_self c a')
    simp only [List.cons_append, findCharIdx, Ne.symm hc]
    simp [hc, ih (fun d hd => h d (List.mem_cons_of_mem c hd))]

/-- Single-character replacement distributes over concatenation. -/
theorem jsReplaceCh_append (pat : Char) (rep : Str) :
    ∀ (a b : Str), jsReplaceCh pat rep (a ++ b)
      = jsReplaceCh pat rep a ++ jsReplaceCh pat rep b := by
  intro a b
  induction a with
  | nil => simp [jsReplaceCh]
  | cons c a' ih =>
    simp only [List.cons_append, jsReplaceCh, List.append_eq]
    by_cases hc : (c == pat) = true
    · rw [if_pos hc, if_pos hc, ih, List.append_assoc]
    · rw [if_neg hc, if_neg hc, ih, List.cons_append]

/-- Escaping distributes over concatenation. -/
theorem escapeHtml_append (a b : Str) :
    escapeHtml (a ++ b) = escapeHtml a ++ escapeHtml b := by
  unfold escapeHtml
  rw [jsReplaceCh_append, jsReplaceCh_append, jsReplaceCh_append, jsReplaceCh_append,
    jsReplaceCh_append]

/-- A second `*` is required for the bold branch to fire. -/
theorem tryBold_no_second {d : Char} {r : Str} (h : d ≠ '*') :
    tryBold ('*' :: d :: r) = none := by
  unfold tryBold
  split
  · rename_i heq
    injection heq with _ heq2
    injection heq2 with h2 _
    exact absurd h2 h
  · rfl

/-- No occurrence of a pattern in a list means no occurrence in any of its
suffixes. -/
theorem firstSubIdx_none_of_suffix {pat t : Str} :
    ∀ {l : Str}, firstSubIdx pat l = none → t <:+ l → firstSubIdx pat t = none := by
  intro l h hsuf
  obtain ⟨pre, rfl⟩ := hsuf
  induction pre with
  | nil => simpa using h
  | cons p pre' ih =>
    apply ih
    simp only [List.cons_append, List.append_eq, firstSubIdx] at h
    split at h
    · cases h
    · rcases hm : firstSubIdx pat (pre' ++ t) with _ | j
      · rfl
      · rw [hm] at h; cases h

/-- A single character cannot enter the bold branch. -/
theorem tryBold_none_single {c : Char} : tryBold [c] = none := by
  unfold tryBold
  split
  · rename_i heq
    injection heq with _ h2
    injection h2
  · rfl

/-- A string with no `**` occurrence cannot enter the bold branch. -/
theorem tryBold_none_of_no_stars {t : Str}
    (h : firstSubIdx (str "**") t = none) : tryBold t = none := by
  cases t with
  | nil => rfl
  | cons c1 t1 =>
    cases t1 with
    | nil => exact tryBold_none_single
    | cons c2 t2 =>
      by_cases h1 : c1 = '*'
      · by_cases h2 : c2 = '*'
        · exfalso
          rw [h1, h2] at h
          simp [firstSubIdx, str_stars, List.isPrefixOf] at h
        · rw [h1]; exact tryBold_no_second h2
      · exact tryBold_none h1

/-- The bold branch continues on a suffix of its input. -/
theorem tryBold_suffix {s s' : Str} {node : Inline}
    (h : tryBold s = some (node, s')) : s' <:+ s := by
  unfold tryBold at h
  split at h
  · split at h
    · cases h
      exact ((List.drop_suffix _ _).trans (List.suffix_cons _ _)).trans (List.suffix_cons _ _)
    · cases h
  · cases h

/-- The italic branch continues on a suffix of its input. -/
theorem tryItalic_suffix {s s' : Str} {node : Inline}
    (h : tryItalic s = some (node, s')) : s' <:+ s := by
  unfold tryItalic at h
  split at h
  · split at h
    · cases h
    · split at h
      · split at h
        · cases h
        · cases h
          exact (List.drop_suffix _ _).trans (List.suffix_cons _ _)
      · cases h
  · cases h

/-- The inline-code branch continues on a suffix of its input. -/
theorem tryCode_suffix {s s' : Str} {node : Inline}
    (h : tryCode s = some (node, s')) : s' <:+ s := by
  unfold tryCode at h
  split at h
  · split at h
    · cases h
      exact (List.drop_suffix _ _).trans (List.suffix_cons _ _)
    · cases h
  · cases h

/-- The link branch continues on a suffix of its input. -/
theorem tryLink_suffix {s s' : Str} {node : Inline}
    (h : tryLink s = some (node, s')) : s' <:+ s := by
  unfold tryLink at h
  split at h
  · split at h
    · split at h
      · split at h
        · cases h
          exact ((List.drop_suffix _ _).trans (List.drop_suffix _ _)).trans
            (List.suffix_cons _ _)
        · cases h
      · cases h
    · cases h
  · cases h

/-- The image branch continues on a suffix of its input. -/
theorem tryImage_suffix {s s' : Str} {node : Inline}
    (h : tryImage s = some (node, s')) : s' <:+ s := by
  unfold tryImage at h
  split at h
  · split at h
    · split at h
      · split at h
        · cases h
          exact (((List.drop_suffix _ _).trans (List.drop_suffix _ _)).trans
            (List.suffix_cons _ _)).trans (List.suffix_cons _ _)
        · cases h
      · cases h
    · cases h
  · cases h

/-- Every successful marker attempt continues on a suffix of its input. -/
theorem tryMarker_suffix {s s' : Str} {node : Inline}
    (h : tryMarker s = some (node, s')) : s' <:+ s := by
  unfold tryMarker at h
  split at h
  · cases h; exact tryBold_suffix (by assumption)
  · split at h
    · cases h; exact tryItalic_suffix (by assumption)
    · split at h
      · cases h; exact tryCode_suffix (by assumption)
      · split at h
        · cases h; exact tryLink_suffix (by assumption)
        · exact tryImage_suffix h

/-- The italic branch only produces italic nodes. -/
theorem tryItalic_shape {s s' : Str} {node : Inline}
    (h : tryItalic s = some (node, s')) : ∃ c, node = Inline.italic c := by
  unfold tryItalic at h
  split at h
  · split at h
    · cases h
    · split at h
      · split at h
        · cases h
        · cases h; exact ⟨_, rfl⟩
      · cases h
  · cases h

/-- The inline-code branch only produces inline-code nodes. -/
theorem tryCode_shape {s s' : Str} {node : Inline}
    (h : tryCode s = some (node, s')) : ∃ c, node = Inline.inlineCode c := by
  unfold tryCode at h
  split at h
  · split at h
    · cases h; exact ⟨_, rfl⟩
    · cases h
  · cases h

/-- The link branch only produces link nodes. -/
theorem tryLink_shape {s s' : Str} {node : Inline}
    (h : tryLink s = some (node, s')) : ∃ c u, node = Inline.link c u := by
  unfold tryLink at h
  split at h
  · split at h
    · split at h
      · split at h
        · cases h; exact ⟨_, _, rfl⟩
        · cases h
      · cases h
    · cases h
  · cases h

/-- The image branch only produces image nodes. -/
theorem tryImage_shape {s s' : Str} {node : Inline}
    (h : tryImage s = some (node, s')) : ∃ a src, node = Inline.image a src := by
  unfold tryImage at h
  split at h
  · split at h
    · split at h
      · split at h
        · cases h; exact ⟨_, _, rfl⟩
        · cases h
      · cases h
    · cases h
  · cases h

/-- When the bold branch fails, no marker attempt produces a bold node. -/
theorem tryMarker_not_bold {s s' : Str} {node : Inline}
    (hb : tryBold s = none) (h : tryMarker s = some (node, s')) :
    ∀ b, node ≠ Inline.bold b := by
  unfold tryMarker at h
  rw [hb] at h
  dsimp only at h
  split at h
  · rename_i r heq
    obtain ⟨n1, s1⟩ := r
    cases h
    obtain ⟨c, rfl⟩ := tryItalic_shape heq
    intro b hcontra
    cases hcontra
  · split at h
    · rename_i r heq
      obtain ⟨n1, s1⟩ := r
      cases h
      obtain ⟨c, rfl⟩ := tryCode_shape heq
      intro b hcontra
      cases hcontra
    · split at h
      · rename_i r heq
        obtain ⟨n1, s1⟩ := r
        cases h
        obtain ⟨c, u, rfl⟩ := tryLink_shape heq
        intro b hcontra
        cases hcontra
      · obtain ⟨a, src, rfl⟩ := tryImage_shape h
        intro b hcontra
        cases hcontra

/-- Flushing the plain-text buffer never emits a bold node. -/
theorem flushBuf_no_bold (buf b : Str) : Inline.bold b ∉ flushBuf buf := by
  unfold flushBuf
  split
  · simp
  · simp

/-- If no suffix of the input can enter the bold branch, the scan never
produces a bold node. -/
theorem parseInlineGo_no_bold :
    ∀ (f : Nat) (s buf : Str),
      (∀ t, t <:+ s → tryBold t = none) →
      ∀ b : Str, Inline.bold b ∉ parseInlineGo f s buf := by
  intro f
  induction f with
  | zero => intro s buf _ b; exact flushBuf_no_bold buf b
  | succ n ih =>
    intro s buf h b
    cases s with
    | nil => exact flushBuf_no_bold buf b
    | cons c rest =>
      simp only [parseInlineGo]
      cases htm : tryMarker (c :: rest) with
      | some r =>
        obtain ⟨node, s'⟩ := r
        dsimp only
        intro hmem
        rcases List.mem_append.mp hmem with hm1 | hm2
        · exact flushBuf_no_bold buf b hm1
        · rcases List.mem_cons.mp hm2 with heq | hm3
          · exact tryMarker_not_bold (h _ (List.suffix_refl _)) htm b heq.symm
          · exact ih s' [] (fun t ht => h t (ht.trans (tryMarker_suffix htm))) b hm3
      | none =>
        dsimp only
        split
        · intro hmem
          rcases List.mem_append.mp hmem with hm1 | hm2
          · exact flushBuf_no_bold buf b hm1
          · exact ih rest [c] (fun t ht => h t (ht.trans (List.suffix_cons _ _))) b hm2
        · exact ih rest (buf ++ [c]) (fun t ht => h t (ht.trans (List.suffix_cons _ _))) b

/-- When the remainder after an opening `**` contains no closing `**`, no
suffix of the whole string can enter the bold branch. -/
theorem tryBold_none_all_suffixes {rest : Str}
    (hno : firstSubIdx (str "**") rest = none) :
    ∀ t, t <:+ ('*' :: '*' :: rest) → tryBold t = none := by
  intro t ht
  rcases List.suffix_cons_iff.mp ht with rfl | ht1
  · simp [tryBold, hno]
  · rcases List.suffix_cons_iff.mp ht1 with rfl | ht2
    · cases hR : rest with
      | nil => exact tryBold_none_single
      | cons c2 t2 =>
        by_cases h2 : c2 = '*'
        · have ht2no : firstSubIdx (str "**") t2 = none :=
            firstSubIdx_none_of_suffix hno (by rw [hR]; exact List.suffix_cons c2 t2)
          rw [h2]
          simp [tryBold, ht2no]
        · exact tryBold_no_second h2
    · exact tryBold_none_of_no_stars (firstSubIdx_none_of_suffix hno ht2)

/-- C8 counterexample: on `**a*b` — where no closing `**` exists — the
asterisks of the unclosed `**` do not all end up as literal text: the
scanner re-reads the second asterisk as an italic opening marker, yielding
`[text "*", italic "a", text "b"]`, serialized as `*<em>a</em>b` rather
than the literal (escaped) `**a*b`. -/
theorem c8_unclosed_stars_not_literal_counterexample :
    parseInlineContent (str "**a*b")
      = [Inline.text (str "*"), Inline.italic (str "a"), Inline.text (str "b")] ∧
    renderInlines (parseInlineContent (str "**a*b")) = str "*<em>a</em>b" ∧
    renderInlines (parseInlineContent (str "**a*b")) ≠ escapeHtml (str "**a*b") :=
  ⟨by decide, by decide, by decide⟩

/-- C8 (amended): a `**` marker produces a Bold node exactly when a closing
`**` occurs later in the same string, delimited by the first such occurrence
(part 1: if `mid` contains no `**` and does not abut the closing marker
with a trailing `*`, the first closing marker ends the bold content at
`mid`, whatever `post` follows).  When no closing `**` exists, the `**` is
not treated as a bold marker: no Bold node is produced anywhere in the
output (part 2), and the unconsumed characters are re-scanned one by one —
they end up as literal text in the output when the remainder contains no
other marker characters (part 3), but an asterisk in the remainder can be
re-read as an italic delimiter (see the counterexample). -/
theorem c8_bold_first_closing_amended :
    (∀ (mid post : Str),
      firstSubIdx (str "**") mid = none → mid.getLast? ≠ some '*' →
      parseInlineContent (str "**" ++ mid ++ str "**" ++ post)
        = Inline.bold mid :: parseInlineContent post) ∧
    (∀ rest : Str, firstSubIdx (str "**") rest = none →
      ∀ b : Str, Inline.bold b ∉ parseInlineContent (str "**" ++ rest)) ∧
    (∀ rest : Str,
      (∀ c ∈ rest, c ≠ '*' ∧ c ≠ '`' ∧ c ≠ '[' ∧ c ≠ '!') →
      parseInlineContent (str "**" ++ rest)
        = [Inline.text ['*'], Inline.text ('*' :: rest)] ∧
      renderInlines (parseInlineContent (str "**" ++ rest))
        = escapeHtml (str "**" ++ rest)) := by
  refine ⟨?_, ?_, ?_⟩
  · intro mid post h1 h2
    have hshape : str "**" ++ mid ++ str "**" ++ post
        = '*' :: '*' :: (mid ++ '*' :: '*' :: post) := by simp [str_stars]
    rw [hshape]
    have hb : tryBold ('*' :: '*' :: (mid ++ '*' :: '*' :: post))
        = some (Inline.bold mid, post) := by
      simp only [tryBold, firstSubIdx_stars_append mid post h1 h2]
      rw [List.take_left]
      rw [show mid ++ '*' :: '*' :: post = (mid ++ ['*', '*']) ++ post by simp]
      rw [List.drop_left' (by simp)]
    have hm : tryMarker ('*' :: '*' :: (mid ++ '*' :: '*' :: post))
        = some (Inline.bold mid, post) := by
      simp only [tryMarker, hb]
    simp only [parseInlineContent, List.isEmpty_cons, Bool.false_eq_true, if_false,
      parseInlineGo, hm, flushBuf, List.isEmpty_nil, if_true, List.nil_append]
    rw [parseInlineGo_eq_content (by simp [List.length_append]; omega)]
    simp only [parseInlineContent]
  · intro rest hno b
    have hshape : str "**" ++ rest = '*' :: '*' :: rest := by simp [str_stars]
    rw [hshape]
    unfold parseInlineContent
    rw [if_neg (by simp)]
    exact parseInlineGo_no_bold _ _ _ (tryBold_none_all_suffixes hno) b
  · intro rest h
    have hstars : ∀ c ∈ rest, c ≠ '*' := fun c hc => (h c hc).1
    have hshape : str "**" ++ rest = '*' :: '*' :: rest := by simp [str_stars]
    have hb0 : tryBold ('*' :: '*' :: rest) = none := by
      simp only [tryBold, firstSubIdx_stars_none hstars]
    have hi0 : tryItalic ('*' :: '*' :: rest) = none := by
      simp [tryItalic]
    have hm0 : tryMarker ('*' :: '*' :: rest) = none := by
      simp only [tryMarker, hb0, hi0,
        tryCode_none (show ('*' : Char) ≠ '`' by decide),
        tryLink_none (show ('*' : Char) ≠ '[' by decide),
        tryImage_none (show ('*' : Char) ≠ '!' by decide)]
    have hb1 : tryBold ('*' :: rest) = none := by
      cases rest with
      | nil => rfl
      | cons d r => exact tryBold_no_second (hstars d (List.mem_cons_self d r))
    have hguard : (rest.head? == some '*') = false := by
      cases rest with
      | nil => rfl
      | cons d r => simp [hstars d (List.mem_cons_self d r)]
    have hi1 : tryItalic ('*' :: rest) = none := by
      simp only [tryItalic, hguard, Bool.false_eq_true, if_false, findCharIdx_none hstars]
    have hm1 : tryMarker ('*' :: rest) = none := by
      simp only [tryMarker, hb1, hi1,
        tryCode_none (show ('*' : Char) ≠ '`' by decide),
        tryLink_none (show ('*' : Char) ≠ '[' by decide),
        tryImage_none (show ('*' : Char) ≠ '!' by decide)]
    have key : parseInlineContent ('*' :: '*' :: rest)
        = [Inline.text ['*'], Inline.text ('*' :: rest)] := by
      simp only [parseInlineContent, List.isEmpty_cons, Bool.false_eq_true, if_false,
        List.length_cons, parseInlineGo, hm0, hm1, enteredMarker, flushBuf,
        List.isEmpty_nil, if_true, List.nil_append]
      rw [parseInlineGo_plain rest h (by omega)]
      simp [flushBuf]
    constructor
    · rw [hshape, key]
    · rw [hshape, key]
      rw [show ('*' :: '*' :: rest : Str) = ['*'] ++ ('*' :: rest) from rfl,
        escapeHtml_append]
      simp [renderInlines, renderInline]

/-- C8 witness: `**a**b**c` resolves to a bold node containing `a` — the
first closing marker wins, not the last; `**a*b`, with no closing `**`,
produces no bold node at all; and `**xy`, whose remainder holds no marker
characters, renders its asterisks as literal text. -/
theorem c8_bold_first_closing_amended_witness :
    (firstSubIdx (str "**") (str "a") = none ∧ (str "a").getLast? ≠ some '*' ∧
      parseInlineContent (str "**" ++ str "a" ++ str "**" ++ str "b**c")
        = Inline.bold (str "a") :: parseInlineContent (str "b**c")) ∧
    (firstSubIdx (str "**") (str "a*b") = none ∧
      Inline.bold (str "a") ∉ parseInlineContent (str "**" ++ str "a*b")) ∧
    ((∀ c ∈ str "xy", c ≠ '*' ∧ c ≠ '`' ∧ c ≠ '[' ∧ c ≠ '!') ∧
      renderInlines (parseInlineContent (str "**" ++ str "xy"))
        = escapeHtml (str "**" ++ str "xy")) :=
  ⟨⟨by decide, by decide,
    c8_bold_first_closing_amended.1 (str "a") (str "b**c") (by decide) (by decide)⟩,
   ⟨by decide,
    c8_bold_first_closing_amended.2.1 (str "a*b") (by decide) (str "a")⟩,
   ⟨by decide, (c8_bold_first_closing_amended.2.2 (str "xy") (by decide)).2⟩⟩

/-- `str "["` as an explicit character list. -/
theorem str_lbrack : str "[" = ['['] := rfl

/-- `str "]("` as an explicit character list. -/
theorem str_rbrack_lparen : str "](" = [']', '('] := rfl

/-- `str ")"` as an explicit character list. -/
theorem str_rparen : str ")" = [')'] := rfl

/-- C10: inline resolution produces a flat, depth-one node sequence — by
construction every `Inline` constructor carries only string content, exactly
mirroring the object literals of `parseInlineContent`, which never set a
`children` field on inline nodes.  Part 1: a link label is captured as plain
content, not recursively inline-resolved, whatever markers it contains.
Parts 2-4: the serializer emits the content of `link`, `bold` and `italic`
nodes as escaped literal text between the tags, never re-resolving nested
markers. -/
theorem c10_inline_sequence_flat :
    (∀ (labelStr url post : Str),
      (∀ c ∈ labelStr, c ≠ ']') → (∀ c ∈ url, c ≠ ')') →
      parseInlineContent (str "[" ++ labelStr ++ str "](" ++ url ++ str ")" ++ post)
        = Inline.link labelStr url :: parseInlineContent post) ∧
    (∀ t u : Str, renderInline (Inline.link t u)
      = str "<a href=\"" ++ escapeHtml u ++ str "\">" ++ escapeHtml t ++ str "</a>") ∧
    (∀ b : Str, renderInline (Inline.bold b)
      = str "<strong>" ++ escapeHtml b ++ str "</strong>") ∧
    (∀ i : Str, renderInline (Inline.italic i)
      = str "<em>" ++ escapeHtml i ++ str "</em>") := by
  refine ⟨?_, fun _ _ => rfl, fun _ => rfl, fun _ => rfl⟩
  intro labelStr url post hLabel hUrl
  have hshape : str "[" ++ labelStr ++ str "](" ++ url ++ str ")" ++ post
      = '[' :: (labelStr ++ ']' :: '(' :: (url ++ ')' :: post)) := by
    simp [str_lbrack, str_rbrack_lparen, str_rparen]
  rw [hshape]
  have hfind1 : findCharIdx ']' (labelStr ++ ']' :: '(' :: (url ++ ')' :: post))
      = some labelStr.length := findCharIdx_append labelStr hLabel
  have hget : (labelStr ++ ']' :: '(' :: (url ++ ')' :: post))[labelStr.length + 1]?
      = some '(' := by
    rw [List.getElem?_append_right (by omega)]
    simp
  have hdrop : (labelStr ++ ']' :: '(' :: (url ++ ')' :: post)).drop (labelStr.length + 2)
      = url ++ ')' :: post := by
    rw [show labelStr ++ ']' :: '(' :: (url ++ ')' :: post)
        = (labelStr ++ [']', '(']) ++ (url ++ ')' :: post) by simp]
    exact List.drop_left' (by simp)
  have htake : (labelStr ++ ']' :: '(' :: (url ++ ')' :: post)).take labelStr.length
      = labelStr := List.take_left _ _
  have hfind2 : findCharIdx ')' (url ++ ')' :: post) = some url.length :=
    findCharIdx_append url hUrl
  have htake2 : (url ++ ')' :: post).take url.length = url := List.take_left _ _
  have hdrop2 : (url ++ ')' :: post).drop (url.length + 1) = post := by
    rw [show url ++ ')' :: post = (url ++ [')']) ++ post by simp]
    exact List.drop_left' (by simp)
  have hlink : tryLink ('[' :: (labelStr ++ ']' :: '(' :: (url ++ ')' :: post)))
      = some (Inline.link labelStr url, post) := by
    simp only [tryLink, hfind1, hget, beq_self_eq_true, if_true, hdrop, hfind2,
      htake, htake2, hdrop2]
  have hmark : tryMarker ('[' :: (labelStr ++ ']' :: '(' :: (url ++ ')' :: post)))
      = some (Inline.link labelStr url, post) := by
    simp only [tryMarker, tryBold_none (show ('[' : Char) ≠ '*' by decide),
      tryItalic_none (show ('[' : Char) ≠ '*' by decide),
      tryCode_none (show ('[' : Char) ≠ '`' by decide), hlink]
  simp only [parseInlineContent, List.isEmpty_cons, Bool.false_eq_true, if_false,
    parseInlineGo, hmark, flushBuf, List.isEmpty_nil, if_true, List.nil_append]
  rw [parseInlineGo_eq_content (by simp [List.length_append]; omega)]
  simp only [parseInlineContent]

/-- C10 witness: the label `**b**` inside a link stays literal — the parser
captures it as plain content and the serializer renders the asterisks as
literal characters, not as nested bold markup. -/
theorem c10_inline_sequence_flat_witness :
    ((∀ c ∈ str "**b**", c ≠ ']') ∧ (∀ c ∈ str "u", c ≠ ')') ∧
      parseInlineContent (str "[" ++ str "**b**" ++ str "](" ++ str "u" ++ str ")" ++ str "")
        = Inline.link (str "**b**") (str "u") :: parseInlineContent (str "")) ∧
    renderInline (Inline.link (str "**b**") (str "u")) = str "<a href=\"u\">**b**</a>" :=
  ⟨⟨by decide, by decide,
    c10_inline_sequence_flat.1 (str "**b**") (str "u") (str "") (by decide) (by decide)⟩,
   by decide⟩

/-! ### Tree-builder helper lemmas -/

/-- Dropping a prefix by a predicate never lengthens a list. -/
theorem dropWhile_length_le {α : Type} (p : α → Bool) :
    ∀ l : List α, (l.dropWhile p).length ≤ l.length := by
  intro l
  induction l with
  | nil => simp
  | cons a l ih =>
    rw [List.dropWhile_cons]
    split
    · exact Nat.le_trans ih (Nat.le_succ _)
    · exact Nat.le_refl _

/-- The fuel argument of the dispatch loop is irrelevant once it exceeds the
number of remaining tokens. -/
theorem parseNodesGo_fuel :
    ∀ (f1 f2 : Nat) {toks : List Token},
      toks.length < f1 → toks.length < f2 →
      parseNodesGo f1 toks = parseNodesGo f2 toks := by
  intro f1
  induction f1 with
  | zero => intro f2 toks h1 _; exact absurd h1 (Nat.not_lt_zero _)
  | succ n ih =>
    intro f2 toks h1 h2
    cases f2 with
    | zero => exact absurd h2 (Nat.not_lt_zero _)
    | succ m =>
      cases toks with
      | nil => rfl
      | cons tok rest =>
        simp only [List.length_cons] at h1 h2
        cases tok <;> simp only [parseNodesGo] <;>
          first
          | rw [ih m (show rest.length < n by omega)
              (show rest.length < m by omega)]
          | rw [ih m (show (rest.dropWhile isListItemTok).length < n from
                Nat.lt_of_le_of_lt (dropWhile_length_le _ _) (by omega))
              (show (rest.dropWhile isListItemTok).length < m from
                Nat.lt_of_le_of_lt (dropWhile_length_le _ _) (by omega))]
          | rw [ih m (show (rest.dropWhile isOrderedTok).length < n from
                Nat.lt_of_le_of_lt (dropWhile_length_le _ _) (by omega))
              (show (rest.dropWhile isOrderedTok).length < m from
                Nat.lt_of_le_of_lt (dropWhile_length_le _ _) (by omega))]
          | rw [ih m (show (rest.dropWhile isTableRowTok).length < n from
                Nat.lt_of_le_of_lt (dropWhile_length_le _ _) (by omega))
              (show (rest.dropWhile isTableRowTok).length < m from
                Nat.lt_of_le_of_lt (dropWhile_length_le _ _) (by omega))]

/-- A run entirely satisfying `p` followed by a non-`p` head splits
`takeWhile`/`dropWhile` exactly at the run boundary. -/
theorem takeWhile_append_all {α : Type} (p : α → Bool) :
    ∀ (l r : List α), (∀ x ∈ l, p x = true) → (∀ x, r.head? = some x → p x = false) →
      (l ++ r).takeWhile p = l ∧ (l ++ r).dropWhile p = r := by
  intro l
  induction l with
  | nil =>
    intro r _ hr
    cases r with
    | nil => exact ⟨rfl, rfl⟩
    | cons x rs =>
      constructor
      · simp [List.takeWhile_cons, hr x rfl]
      · simp [List.dropWhile_cons, hr x rfl]
  | cons a l ih =>
    intro r hl hr
    have ha : p a = true := hl a (List.mem_cons_self a l)
    obtain ⟨iht, ihd⟩ := ih r (fun x hx => hl x (List.mem_cons_of_mem _ hx)) hr
    constructor
    · simp [List.takeWhile_cons, ha, iht]
    · simp [List.dropWhile_cons, ha, ihd]

/-- A token passing the `list_item` test is a `listItem` token. -/
theorem isListItemTok_shape {t : Token} (h : isListItemTok t = true) :
    ∃ c v p l, t = Token.listItem c v p l := by
  cases t <;> first
    | exact ⟨_, _, _, _, rfl⟩
    | simp [isListItemTok] at h

/-- A token passing the `blockquote` test is a `blockquote` token. -/
theorem isBqTok_shape {t : Token} (h : isBqTok t = true) :
    ∃ c v p l, t = Token.blockquote c v p l := by
  cases t <;> first
    | exact ⟨_, _, _, _, rfl⟩
    | simp [isBqTok] at h

/-- C7: a maximal consecutive run of `list_item` tokens becomes exactly one
unordered `list` node with one item per token, each item's text
inline-resolved independently (`listItemNode`); the run stops at the first
non-`list_item` token, and the builder continues with the remaining tokens
(so an unordered item followed by an ordered item starts a new list node). -/
theorem c7_list_groups_maximal_run :
    ∀ (run rest : List Token), run ≠ [] →
      (∀ t ∈ run, isListItemTok t = true) →
      (∀ t, rest.head? = some t → isListItemTok t = false) →
      parseNodes (run ++ rest) = Block.list (run.map listItemNode) :: parseNodes rest := by
  intro run rest hne hall hstop
  cases run with
  | nil => exact absurd rfl hne
  | cons t run' =>
    obtain ⟨c, v, p, l, rfl⟩ := isListItemTok_shape (hall t (List.mem_cons_self t run'))
    obtain ⟨htake, hdrop⟩ := takeWhile_append_all isListItemTok run' rest
      (fun x hx => hall x (List.mem_cons_of_mem _ hx)) hstop
    simp only [parseNodes, List.cons_append, List.length_cons, parseNodesGo, List.append_eq,
      htake, hdrop, List.map_cons]
    rw [parseNodesGo_fuel _ (rest.length + 1)
      (show rest.length < (run' ++ rest).length + 1 by
        simp [List.length_append]; omega) (by omega)]

/-- C7 witness: two consecutive unordered items followed by an ordered item
yield one unordered list node with two items, and the ordered item opens a
separate ordered list node. -/
theorem c7_list_groups_maximal_run_witness :
    ([Token.listItem (str "a") (str "- a") 0 3, Token.listItem (str "b") (str "- b") 1 3]
        ≠ ([] : List Token)) ∧
    parseNodes ([Token.listItem (str "a") (str "- a") 0 3,
        Token.listItem (str "b") (str "- b") 1 3]
      ++ [Token.orderedListItem (str "c") (str "1. c") 2 4])
      = Block.list ([Token.listItem (str "a") (str "- a") 0 3,
          Token.listItem (str "b") (str "- b") 1 3].map listItemNode)
        :: parseNodes [Token.orderedListItem (str "c") (str "1. c") 2 4] ∧
    parseNodes [Token.listItem (str "a") (str "- a") 0 3,
        Token.listItem (str "b") (str "- b") 1 3,
        Token.orderedListItem (str "c") (str "1. c") 2 4]
      = [Block.list [⟨str "a", [Inline.text (str "a")]⟩, ⟨str "b", [Inline.text (str "b")]⟩],
         Block.orderedList [⟨str "c", [Inline.text (str "c")]⟩]] :=
  ⟨by decide,
   c7_list_groups_maximal_run
     [Token.listItem (str "a") (str "- a") 0 3, Token.listItem (str "b") (str "- b") 1 3]
     [Token.orderedListItem (str "c") (str "1. c") 2 4]
     (by decide) (by decide) (by decide),
   by decide⟩

/-- The dispatch loop turns every blockquote token into its own node and
moves on by exactly one token. -/
theorem parseNodesGo_bq :
    ∀ (bqs : List Token) {f : Nat} {rest : List Token},
      (bqs ++ rest).length < f → (∀ t ∈ bqs, isBqTok t = true) →
      parseNodesGo f (bqs ++ rest) = bqs.map bqNode ++ parseNodesGo (f - bqs.length) rest := by
  intro bqs
  induction bqs with
  | nil => intro f rest _ _; simp
  | cons t bqs' ih =>
    intro f rest h hall
    obtain ⟨c, v, p, l, rfl⟩ := isBqTok_shape (hall t (List.mem_cons_self t bqs'))
    cases f with
    | zero => exact absurd h (Nat.not_lt_zero _)
    | succ n =>
      simp only [List.cons_append, List.length_cons, List.length_append] at h ⊢
      simp only [parseNodesGo]
      rw [ih (by simp [List.length_append]; omega)
        (fun x hx => hall x (List.mem_cons_of_mem _ hx))]
      simp [bqNode, Token.contentOf, Nat.succ_sub_succ_eq_sub]

/-- C9: every consecutive sequence of blockquote tokens produces one
independent `Blockquote` node per token — one per source line — and
consecutive blockquote lines are never merged into a single node. -/
theorem c9_blockquote_one_node_per_token :
    ∀ (bqs rest : List Token), (∀ t ∈ bqs, isBqTok t = true) →
      parseNodes (bqs ++ rest) = bqs.map bqNode ++ parseNodes rest := by
  intro bqs rest hall
  unfold parseNodes
  rw [parseNodesGo_bq bqs (by omega) hall]
  have heq : (bqs ++ rest).length + 1 - bqs.length = rest.length + 1 := by
    simp [List.length_append]
    omega
  rw [heq]

/-- C9 witness: two consecutive blockquote tokens (as produced from
`"> a\n> b"`) become two separate blockquote nodes, not one merged node. -/
theorem c9_blockquote_one_node_per_token_witness :
    (∀ t ∈ [Token.blockquote (str "a") (str "> a") 0 3,
        Token.blockquote (str "b") (str "> b") 1 3], isBqTok t = true) ∧
    parseNodes ([Token.blockquote (str "a") (str "> a") 0 3,
        Token.blockquote (str "b") (str "> b") 1 3] ++ [])
      = [Token.blockquote (str "a") (str "> a") 0 3,
         Token.blockquote (str "b") (str "> b") 1 3].map bqNode ++ parseNodes [] ∧
    tokenize (str "> a\n> b")
      = [Token.blockquote (str "a") (str "> a") 0 3,
         Token.blockquote (str "b") (str "> b") 1 3] :=
  ⟨by decide,
   c9_blockquote_one_node_per_token
     [Token.blockquote (str "a") (str "> a") 0 3, Token.blockquote (str "b") (str "> b") 1 3]
     [] (by decide),
   by decide⟩

/-! ### Tokenizer helper lemmas -/

/-- The fence loop returns a suffix of its input. -/
theorem collectCode_snd_le : ∀ ls : List Str, (collectCode ls).2.length ≤ ls.length := by
  intro ls
  induction ls with
  | nil => simp [collectCode]
  | cons l ls ih =>
    simp only [collectCode]
    split
    · simp
    · simpa using Nat.le_trans ih (Nat.le_succ _)

/-- The fence loop is the `takeWhile`/`dropWhile` split at the first closing
fence. -/
theorem collectCode_eq :
    ∀ ls : List Str, collectCode ls = (ls.takeWhile notFence, ls.dropWhile notFence) := by
  intro ls
  induction ls with
  | nil => rfl
  | cons l ls ih =>
    simp only [collectCode, List.takeWhile_cons, List.dropWhile_cons, notFence]
    by_cases hf : startsFence (jsTrim l) = true
    · simp [hf]
    · simp [hf, ih, notFence]

/-- The fuel argument of the line scan is irrelevant once it exceeds the
number of remaining lines. -/
theorem tokenizeGo_fuel :
    ∀ (f1 f2 : Nat) {pos : Nat} {lines : List Str},
      lines.length < f1 → lines.length < f2 →
      tokenizeGo f1 pos lines = tokenizeGo f2 pos lines := by
  intro f1
  induction f1 with
  | zero => intro f2 pos lines h1 _; exact absurd h1 (Nat.not_lt_zero _)
  | succ n ih =>
    intro f2 pos lines h1 h2
    cases f2 with
    | zero => exact absurd h2 (Nat.not_lt_zero _)
    | succ m =>
      cases lines with
      | nil => rfl
      | cons line rest =>
        simp only [List.length_cons] at h1 h2
        simp only [tokenizeGo]
        by_cases h0 : (jsTrim line).isEmpty = true
        · simp only [if_pos h0]
          rw [ih m (by omega) (by omega)]
        · simp only [if_neg h0]
          cases hh : headerMatch? (jsTrim line) with
          | some pr =>
            obtain ⟨lvl, txt⟩ := pr
            dsimp only
            rw [ih m (by omega) (by omega)]
          | none =>
            dsimp only
            by_cases hf : startsFence (jsTrim line) = true
            · simp only [if_pos hf]
              have hc := collectCode_snd_le rest
              rw [ih m (show ((collectCode rest).2.drop 1).length < n by
                    simp only [List.length_drop]; omega)
                  (show ((collectCode rest).2.drop 1).length < m by
                    simp only [List.length_drop]; omega)]
            · simp only [if_neg hf]
              cases hl : listMatch? (jsTrim line) with
              | some content =>
                dsimp only
                rw [ih m (by omega) (by omega)]
              | none =>
                dsimp only
                cases ho : orderedMatch? (jsTrim line) with
                | some content =>
                  dsimp only
                  rw [ih m (by omega) (by omega)]
                | none =>
                  dsimp only
                  by_cases hq : ((jsTrim line).head? == some '>') = true
                  · simp only [if_pos hq]
                    rw [ih m (by omega) (by omega)]
                  · simp only [if_neg hq]
                    by_cases hhr : isHrLine (jsTrim line) = true
                    · simp only [if_pos hhr]
                      rw [ih m (by omega) (by omega)]
                    · simp only [if_neg hhr]
                      by_cases ht : ((jsTrim line).head? == some '|'
                          && (jsTrim line).getLast? == some '|') = true
                      · simp only [if_pos ht]
                        rw [ih m (by omega) (by omega)]
                      · simp only [if_neg ht]
                        rw [ih m (by omega) (by omega)]

/-- C4: line classification tries the categories in the fixed priority order
Blank, Header, FencedCodeBlock start, unordered ListItem, OrderedListItem,
Blockquote, HorizontalRule, TableRow, Paragraph, stopping at the first
match: the tokenizer's decision chain (`classify`) equals first-match
semantics over the spec's ordered rule list (`classifySpec`); the first
token emitted for any line has the kind of the line's class (classification
is line-local — the rest of the input never changes the head token's kind);
and a table-row-like line missing its trailing pipe falls through to
Paragraph. -/
theorem c4_classification_priority_order :
    (∀ line : Str, classify line = classifySpec line) ∧
    (∀ (pos : Nat) (line : Str) (rest : List Str),
      ∃ tok toks, tokenizeFrom pos (line :: rest) = tok :: toks ∧
        tok.kindOf = (classify line).tokKind) ∧
    classify (str "| a | b") = LineClass.paragraph := by
  refine ⟨?_, ?_, by decide⟩
  · intro line
    by_cases h0 : (jsTrim line).isEmpty = true
    · simp [classify, classifySpec, specRules, firstMatch, h0]
    · cases hh : headerMatch? (jsTrim line) with
      | some pr => simp [classify, classifySpec, specRules, firstMatch, h0, hh]
      | none =>
        by_cases hf : startsFence (jsTrim line) = true
        · simp [classify, classifySpec, specRules, firstMatch, h0, hh, hf]
        · cases hl : listMatch? (jsTrim line) with
          | some c1 => simp [classify, classifySpec, specRules, firstMatch, h0, hh, hf, hl]
          | none =>
            cases ho : orderedMatch? (jsTrim line) with
            | some c2 =>
              simp [classify, classifySpec, specRules, firstMatch, h0, hh, hf, hl, ho]
            | none =>
              by_cases hq : ((jsTrim line).head? == some '>') = true
              · simp [classify, classifySpec, specRules, firstMatch, h0, hh, hf, hl, ho, hq]
              · by_cases hhr : isHrLine (jsTrim line) = true
                · simp [classify, classifySpec, specRules, firstMatch,
                    h0, hh, hf, hl, ho, hq, hhr]
                · by_cases ht : ((jsTrim line).head? == some '|'
                      && (jsTrim line).getLast? == some '|') = true
                  · simp [classify, classifySpec, specRules, firstMatch,
                      h0, hh, hf, hl, ho, hq, hhr, ht]
                  · simp [classify, classifySpec, specRules, firstMatch,
                      h0, hh, hf, hl, ho, hq, hhr, ht]
  · intro pos line rest
    by_cases h0 : (jsTrim line).isEmpty = true
    · exact ⟨Token.lineBreak pos, tokenizeGo (rest.length + 1) (pos + 1) rest,
        by simp [tokenizeFrom, List.length_cons, tokenizeGo, h0],
        by simp [classify, h0, Token.kindOf, LineClass.tokKind]⟩
    · cases hh : headerMatch? (jsTrim line) with
      | some pr =>
        obtain ⟨lvl, txt⟩ := pr
        exact ⟨Token.header lvl txt line pos line.length,
          tokenizeGo (rest.length + 1) (pos + 1) rest,
          by simp [tokenizeFrom, List.length_cons, tokenizeGo, h0, hh],
          by simp [classify, h0, hh, Token.kindOf, LineClass.tokKind]⟩
      | none =>
        by_cases hf : startsFence (jsTrim line) = true
        · exact ⟨Token.codeBlock (jsTrim ((jsTrim line).drop 3))
              (List.intercalate (str "\n") (collectCode rest).1) line pos
              ((collectCode rest).1.length + 2),
            tokenizeGo (rest.length + 1) (pos + (collectCode rest).1.length + 2)
              ((collectCode rest).2.drop 1),
            by simp [tokenizeFrom, List.length_cons, tokenizeGo, h0, hh, hf],
            by simp [classify, h0, hh, hf, Token.kindOf, LineClass.tokKind]⟩
        · cases hl : listMatch? (jsTrim line) with
          | some c1 =>
            exact ⟨Token.listItem c1 line pos line.length,
              tokenizeGo (rest.length + 1) (pos + 1) rest,
              by simp [tokenizeFrom, List.length_cons, tokenizeGo, h0, hh, hf, hl],
              by simp [classify, h0, hh, hf, hl, Token.kindOf, LineClass.tokKind]⟩
          | none =>
            cases ho : orderedMatch? (jsTrim line) with
            | some c2 =>
              exact ⟨Token.orderedListItem c2 line pos line.length,
                tokenizeGo (rest.length + 1) (pos + 1) rest,
                by simp [tokenizeFrom, List.length_cons, tokenizeGo, h0, hh, hf, hl, ho],
                by simp [classify, h0, hh, hf, hl, ho, Token.kindOf, LineClass.tokKind]⟩
            | none =>
              by_cases hq : ((jsTrim line).head? == some '>') = true
              · exact ⟨Token.blockquote (jsTrim ((jsTrim line).drop 1)) line pos line.length,
                  tokenizeGo (rest.length + 1) (pos + 1) rest,
                  by simp [tokenizeFrom, List.length_cons, tokenizeGo, h0, hh, hf, hl, ho, hq],
                  by simp [classify, h0, hh, hf, hl, ho, hq, Token.kindOf, LineClass.tokKind]⟩
              · by_cases hhr : isHrLine (jsTrim line) = true
                · exact ⟨Token.hr line line pos line.length,
                    tokenizeGo (rest.length + 1) (pos + 1) rest,
                    by simp [tokenizeFrom, List.length_cons, tokenizeGo,
                      h0, hh, hf, hl, ho, hq, hhr],
                    by simp [classify, h0, hh, hf, hl, ho, hq, hhr,
                      Token.kindOf, LineClass.tokKind]⟩
                · by_cases ht : ((jsTrim line).head? == some '|'
                      && (jsTrim line).getLast? == some '|') = true
                  · exact ⟨Token.tableRow (jsTrim line) (tableCells (jsTrim line))
                        line pos line.length,
                      tokenizeGo (rest.length + 1) (pos + 1) rest,
                      by simp [tokenizeFrom, List.length_cons, tokenizeGo,
                        h0, hh, hf, hl, ho, hq, hhr, ht],
                      by simp [classify, h0, hh, hf, hl, ho, hq, hhr, ht,
                        Token.kindOf, LineClass.tokKind]⟩
                  · exact ⟨Token.paragraph line line pos line.length,
                      tokenizeGo (rest.length + 1) (pos + 1) rest,
                      by simp [tokenizeFrom, List.length_cons, tokenizeGo,
                        h0, hh, hf, hl, ho, hq, hhr, ht],
                      by simp [classify, h0, hh, hf, hl, ho, hq, hhr, ht,
                        Token.kindOf, LineClass.tokKind]⟩

/-- `str "```"` as an explicit character list. -/
theorem str_fence : str "```" = ['`', '`', '`'] := rfl

/-- A line not starting with `#` cannot match the header regex. -/
theorem headerMatch?_none_of_head {c : Char} {ts : Str} (h : c ≠ '#') :
    headerMatch? (c :: ts) = none := by
  simp [headerMatch?, List.takeWhile_cons, h]

/-- A fence line starts with a backtick. -/
theorem startsFence_shape {t : Str} (h : startsFence t = true) : ∃ ts, t = '`' :: ts := by
  cases t with
  | nil => simp [startsFence, str_fence, List.isPrefixOf] at h
  | cons c ts =>
    simp only [startsFence, str_fence, List.isPrefixOf, Bool.and_eq_true, beq_iff_eq] at h
    exact ⟨ts, by rw [← h.1]⟩

/-- A non-whitespace, non-bullet head rules the unordered-list regex out. -/
theorem listMatch?_none_of_head {c : Char} {ts : Str} (hws : isJsWs c = false)
    (h1 : c ≠ '-') (h2 : c ≠ '*') (h3 : c ≠ '+') : listMatch? (c :: ts) = none := by
  simp [listMatch?, List.dropWhile_cons, hws, h1, h2, h3]

/-- A non-whitespace, non-digit head rules the ordered-list regex out. -/
theorem orderedMatch?_none_of_head {c : Char} {ts : Str} (hws : isJsWs c = false)
    (hd : c.isDigit = false) : orderedMatch? (c :: ts) = none := by
  simp [orderedMatch?, List.dropWhile_cons, List.takeWhile_cons, hws, hd]

/-- A head outside `-`, `*`, `_` rules the horizontal-rule regex out. -/
theorem isHrLine_false_of_head {c : Char} {ts : Str}
    (h1 : c ≠ '-') (h2 : c ≠ '*') (h3 : c ≠ '_') : isHrLine (c :: ts) = false := by
  simp [isHrLine, List.all_cons, h1, h2, h3]

/-- C5: a line whose trimmed form begins with three backticks emits one
`codeBlock` token whose language is the trailing tag of that line and whose
code is the raw lines up to (excluding) the first line whose trimmed form
also begins with three backticks — or all remaining lines when no closing
fence exists, tolerating the unterminated fence — and the scan resumes past
the whole consumed span (after the closing fence; at the end of input when
unterminated). -/
theorem c5_fenced_code_consumption :
    ∀ (pos : Nat) (line : Str) (rest : List Str),
      startsFence (jsTrim line) = true →
      tokenizeFrom pos (line :: rest)
        = Token.codeBlock (jsTrim ((jsTrim line).drop 3))
            (List.intercalate (str "\n") (rest.takeWhile notFence))
            line pos ((rest.takeWhile notFence).length + 2)
          :: tokenizeFrom (pos + (rest.takeWhile notFence).length + 2)
              ((rest.dropWhile notFence).drop 1) := by
  intro pos line rest hf
  obtain ⟨ts, hT⟩ := startsFence_shape hf
  have hne : (jsTrim line).isEmpty = false := by rw [hT]; rfl
  have hhm : headerMatch? (jsTrim line) = none := by
    rw [hT]; exact headerMatch?_none_of_head (by decide)
  simp only [tokenizeFrom, List.length_cons, tokenizeGo, hne, Bool.false_eq_true, if_false,
    hhm, hf, if_true, collectCode_eq]
  have hlen := dropWhile_length_le notFence rest
  rw [tokenizeGo_fuel (rest.length + 1) (((rest.dropWhile notFence).drop 1).length + 1)
    (show ((rest.dropWhile notFence).drop 1).length < rest.length + 1 by
      simp only [List.length_drop]; omega)
    (by omega)]

/-- C5 witness: an unterminated fence (`"```js"` then `"x"`) is tolerated —
the single code-block token absorbs everything to end of input — and a
terminated fence consumes through its closing line, the scan resuming after
it. -/
theorem c5_fenced_code_consumption_witness :
    startsFence (jsTrim (str "```js")) = true ∧
    tokenizeFrom 0 [str "```js", str "x"]
      = Token.codeBlock (jsTrim ((jsTrim (str "```js")).drop 3))
          (List.intercalate (str "\n") ([str "x"].takeWhile notFence))
          (str "```js") 0 (([str "x"].takeWhile notFence).length + 2)
        :: tokenizeFrom (0 + ([str "x"].takeWhile notFence).length + 2)
            (([str "x"].dropWhile notFence).drop 1) ∧
    tokenize (str "```js\nx") = [Token.codeBlock (str "js") (str "x") (str "```js") 0 3] ∧
    tokenize (str "```\na\n```\nb")
      = [Token.codeBlock (str "") (str "a") (str "```") 0 3,
         Token.paragraph (str "b") (str "b") 3 1] :=
  ⟨by decide,
   c5_fenced_code_consumption 0 (str "```js") [str "x"] (by decide),
   by decide, by decide⟩

/-- C6 counterexample: on the row `|a||b|` — three columns `a`, empty, `b` —
the tokenizer's cells are `["a", "b"]`: the interior empty column is
discarded, not retained, so the cells are not one per source column. -/
theorem c6_interior_empty_cell_dropped :
    tokenize (str "|a||b|")
      = [Token.tableRow (str "|a||b|") [str "a", str "b"] (str "|a||b|") 0 6] ∧
    [str "a", str "b"] ≠ [str "a", str "", str "b"] ∧
    (Token.tableRow (str "|a||b|") [str "a", str "b"] (str "|a||b|") 0 6).cellsOf.length ≠ 3 :=
  ⟨by decide, by decide, by decide⟩

/-- C6 (amended): for every table-row line (trimmed line starting and ending
with `|`, and non-blank), the token's cells are obtained by splitting on
`|`, trimming each piece, and discarding every empty piece — the empty edge
artifacts of the leading/trailing delimiters and interior empty (or
whitespace-only) columns alike. -/
theorem c6_cells_drop_all_empty_pieces :
    ∀ (pos : Nat) (line : Str) (rest : List Str),
      (jsTrim line).isEmpty = false →
      (jsTrim line).head? = some '|' →
      (jsTrim line).getLast? = some '|' →
      tokenizeFrom pos (line :: rest)
        = Token.tableRow (jsTrim line)
            (((jsSplitChar '|' (jsTrim line)).map jsTrim).filter (fun c => !c.isEmpty))
            line pos line.length
          :: tokenizeFrom (pos + 1) rest := by
  intro pos line rest hne hhead hlast
  obtain ⟨ts, hT⟩ : ∃ ts, jsTrim line = '|' :: ts := by
    cases hT : jsTrim line with
    | nil => rw [hT] at hhead; cases hhead
    | cons c ts =>
      rw [hT] at hhead
      simp only [List.head?_cons, Option.some.injEq] at hhead
      exact ⟨ts, by rw [hhead]⟩
  have hhm : headerMatch? (jsTrim line) = none := by
    rw [hT]; exact headerMatch?_none_of_head (by decide)
  have hf : startsFence (jsTrim line) = false := by
    rw [hT]
    simp [startsFence, str_fence, List.isPrefixOf]
  have hl : listMatch? (jsTrim line) = none := by
    rw [hT]; exact listMatch?_none_of_head (by decide) (by decide) (by decide) (by decide)
  have ho : orderedMatch? (jsTrim line) = none := by
    rw [hT]; exact orderedMatch?_none_of_head (by decide) (by decide)
  have hq : ((jsTrim line).head? == some '>') = false := by
    rw [hhead]; rfl
  have hhr : isHrLine (jsTrim line) = false := by
    rw [hT]; exact isHrLine_false_of_head (by decide) (by decide) (by decide)
  have htab : ((jsTrim line).head? == some '|' && (jsTrim line).getLast? == some '|')
      = true := by
    rw [hhead, hlast]; rfl
  simp only [tokenizeFrom, List.length_cons, tokenizeGo, hne, Bool.false_eq_true, if_false,
    hhm, hf, hl, ho, hq, hhr, htab, if_true, tableCells]

/-- C6 witness: the row `| x | | y |` (an interior whitespace-only column)
keeps only the non-empty trimmed pieces `x` and `y`. -/
theorem c6_cells_drop_all_empty_pieces_witness :
    (jsTrim (str "| x | | y |")).isEmpty = false ∧
    (jsTrim (str "| x | | y |")).head? = some '|' ∧
    (jsTrim (str "| x | | y |")).getLast? = some '|' ∧
    tokenizeFrom 0 [str "| x | | y |"]
      = Token.tableRow (jsTrim (str "| x | | y |"))
          (((jsSplitChar '|' (jsTrim (str "| x | | y |"))).map jsTrim).filter
            (fun c => !c.isEmpty))
          (str "| x | | y |") 0 (str "| x | | y |").length
        :: tokenizeFrom (0 + 1) [] ∧
    ((jsSplitChar '|' (jsTrim (str "| x | | y |"))).map jsTrim).filter (fun c => !c.isEmpty)
      = [str "x", str "y"] :=
  ⟨by decide, by decide, by decide,
   c6_cells_drop_all_empty_pieces 0 (str "| x | | y |") [] (by decide) (by decide) (by decide),
   by decide⟩
